import Mathlib

/-!
Verification of the actor-based pit-stop coordination core
(src/Concurrency/ActorModel/actor_model.py).

The development is a shallow embedding of the Python source:

* `Position`, `MessageType`, `Msg` mirror the `Position` and `MessageType`
  enums and the `Message` dataclass (whose `sender_mailbox` field defaults
  to `None`).
* `workerStep` / `workerRun` embed the body of `PitCrewMember.run`.
* `engineerStep` / `engineerRun` / `engineerTrace` embed the body of
  `RaceEngineer.run` (the aggregation loop), including the fact that
  Python's `set.remove` raises `KeyError` when the element is absent.
* A small-step interleaving semantics (`SysState`, `step`, `runSched`,
  `Reachable`) embeds `RaceEngineer.coordinate_pit_stop` running
  concurrently with the `PitCrewMember.run` loops; mailboxes are FIFO
  lists, and every interleaving of the engineer task and the worker tasks
  is considered.  The model is parameterized by the list `pool` of worker
  identities; the source instantiates it with the four wheel positions
  (`allPositions`).
-/

/-- Wheel positions in a racing car (the `Position` enum). -/
inductive Position where
  | FRONT_LEFT
  | FRONT_RIGHT
  | REAR_LEFT
  | REAR_RIGHT
deriving DecidableEq, Repr

/-- Iteration order of the `Position` enum, as used by `for pos in Position`
and `set(Position)` in the source. -/
def allPositions : List Position :=
  [Position.FRONT_LEFT, Position.FRONT_RIGHT, Position.REAR_LEFT, Position.REAR_RIGHT]

/-- Types of messages exchanged between actors (the `MessageType` enum). -/
inductive MessageType where
  | CHANGE_TIRE
  | TIRE_CHANGED
  | STOP
deriving DecidableEq, Repr

/-- Reference to one of the mailboxes of the system: the supervisor's
(`RaceEngineer.mailbox`) or a crew member's (`PitCrewMember.mailbox`).
Worker identities are kept generic in `ι`; the source uses `Position`. -/
inductive MailboxRef (ι : Type) where
  | engineer
  | worker (p : ι)
deriving DecidableEq, Repr

/-- The `Message` dataclass: `msg_type`, `position` and `sender_mailbox`,
the last defaulting to `None`.  `position` is an `Option` because the
source constructs `Message(MessageType.STOP, None)`. -/
structure Msg (ι : Type) where
  msg_type : MessageType
  position : Option ι
  sender_mailbox : Option (MailboxRef ι) := none
deriving DecidableEq, Repr

/-- The work message dispatched by `coordinate_pit_stop`:
`Message(MessageType.CHANGE_TIRE, position, self.mailbox)`. -/
def workMsg {ι : Type} (p : ι) : Msg ι :=
  { msg_type := MessageType.CHANGE_TIRE
    position := some p
    sender_mailbox := some MailboxRef.engineer }

/-- The completion reply built by `PitCrewMember.run`:
`Message(MessageType.TIRE_CHANGED, self.position)` (sender defaulted). -/
def complMsg {ι : Type} (p : ι) : Msg ι :=
  { msg_type := MessageType.TIRE_CHANGED
    position := some p }

/-- The shutdown message sent by `coordinate_pit_stop`:
`Message(MessageType.STOP, None)` (sender defaulted). -/
def stopMsg {ι : Type} : Msg ι :=
  { msg_type := MessageType.STOP
    position := none }

/-- Runtime errors of the embedded Python fragments. -/
inductive PyError where
  | keyError
deriving DecidableEq, Repr

/-- One iteration of the aggregation loop body of `RaceEngineer.run` on an
incoming message: a `TIRE_CHANGED` message removes its position from the
pending set via `set.remove`, which raises `KeyError` when the element is
absent (this includes `remove(None)`); any other message is discarded. -/
def engineerStep {ι : Type} [DecidableEq ι] (pending : Finset ι) (msg : Msg ι) :
    Except PyError (Finset ι) :=
  if msg.msg_type = MessageType.TIRE_CHANGED then
    match msg.position with
    | some p =>
      if p ∈ pending then Except.ok (pending.erase p) else Except.error PyError.keyError
    | none => Except.error PyError.keyError
  else
    Except.ok pending

/-- Result of running the aggregation loop of `RaceEngineer.run` against a
finite stream of delivered messages. -/
inductive EngOutcome (ι : Type) where
  | done (leftover : List (Msg ι))
  | starving (pending : Finset ι)
  | keyError (pending : Finset ι) (failing : Msg ι)
deriving DecidableEq

/-- The aggregation loop `RaceEngineer.run` over a finite stream of
messages: while the pending set is non-empty, dequeue the next message and
apply `engineerStep`.  `done` means the loop exited with an empty pending
set; `starving` means the stream ran out while the loop was still waiting
(`await self.mailbox.get()` would block forever); `keyError` means
`set.remove` raised. -/
def engineerRun {ι : Type} [DecidableEq ι] (pending : Finset ι) (msgs : List (Msg ι)) :
    EngOutcome ι :=
  if pending = ∅ then EngOutcome.done msgs
  else
    match msgs with
    | [] => EngOutcome.starving pending
    | m :: rest =>
      match engineerStep pending m with
      | Except.ok pd => engineerRun pd rest
      | Except.error _ => EngOutcome.keyError pending m

/-- The successive values of `pending_changes` observed at the top of the
aggregation loop of `RaceEngineer.run` while consuming a message stream. -/
def engineerTrace {ι : Type} [DecidableEq ι] (pending : Finset ι) (msgs : List (Msg ι)) :
    List (Finset ι) :=
  if pending = ∅ then [pending]
  else
    match msgs with
    | [] => [pending]
    | m :: rest =>
      match engineerStep pending m with
      | Except.ok pd => pending :: engineerTrace pd rest
      | Except.error _ => [pending]

/-- Effect of one iteration of the message loop body of
`PitCrewMember.run`. -/
inductive WorkerAction (ι : Type) where
  | exit
  | reply (dest : MailboxRef ι) (response : Msg ι)
  | crash
  | ignore
deriving DecidableEq

/-- One iteration of the loop body of `PitCrewMember.run` on a dequeued
message: `STOP` breaks the loop; `CHANGE_TIRE` performs the simulated work
and sends the completion reply to `msg.sender_mailbox` — dereferencing it
unguarded, so a `None` sender crashes the worker; any other message type
falls through both `if`s and is discarded. -/
def workerStep {ι : Type} (pos : ι) (msg : Msg ι) : WorkerAction ι :=
  if msg.msg_type = MessageType.STOP then WorkerAction.exit
  else if msg.msg_type = MessageType.CHANGE_TIRE then
    match msg.sender_mailbox with
    | some dest => WorkerAction.reply dest (complMsg pos)
    | none => WorkerAction.crash
  else WorkerAction.ignore

/-- Result of running the loop of `PitCrewMember.run` against a finite
stream of delivered messages, together with the list of (destination,
message) sends it performed, in order. -/
inductive WorkerOutcome (ι : Type) where
  | stopped (sent : List (MailboxRef ι × Msg ι)) (leftover : List (Msg ι))
  | starving (sent : List (MailboxRef ι × Msg ι))
  | crashed (sent : List (MailboxRef ι × Msg ι)) (failing : Msg ι)
deriving DecidableEq

/-- Prepend one performed send to a worker outcome. -/
def WorkerOutcome.consSend {ι : Type} (e : MailboxRef ι × Msg ι) :
    WorkerOutcome ι → WorkerOutcome ι
  | WorkerOutcome.stopped s l => WorkerOutcome.stopped (e :: s) l
  | WorkerOutcome.starving s => WorkerOutcome.starving (e :: s)
  | WorkerOutcome.crashed s m => WorkerOutcome.crashed (e :: s) m

/-- The message loop of `PitCrewMember.run` over a finite stream of
messages. -/
def workerRun {ι : Type} (pos : ι) : List (Msg ι) → WorkerOutcome ι
  | [] => WorkerOutcome.starving []
  | m :: rest =>
    match workerStep pos m with
    | WorkerAction.exit => WorkerOutcome.stopped [] rest
    | WorkerAction.reply d r => WorkerOutcome.consSend (d, r) (workerRun pos rest)
    | WorkerAction.crash => WorkerOutcome.crashed [] m
    | WorkerAction.ignore => workerRun pos rest

/-- Observable events of the coordination protocol, recorded (newest
first) in the system state as the interleaved execution proceeds. -/
inductive Event (ι : Type) where
  | sentWork (p : ι) (m : Msg ι)
  | sentCompletion (p : ι)
  | sentStop (p : ι)
  | gotStop (p : ι)
deriving DecidableEq, Repr

/-- Control state of one `PitCrewMember.run` task: parked on
`await self.mailbox.get()`; between receiving a `CHANGE_TIRE` message and
sending the reply (the simulated work); exited after `STOP`; or crashed
(`None.put` on a missing sender mailbox). -/
inductive WorkerCtrl (ι : Type) where
  | awaitingMsg
  | working (dest : MailboxRef ι) (response : Msg ι)
  | stopped
  | crashed
deriving DecidableEq, Repr

/-- Program counter of the `coordinate_pit_stop` coroutine (with
`RaceEngineer.run` inlined where it is awaited): sending the work
messages; the aggregation loop; sending the stop messages; the final
`asyncio.gather`; returned; or dead with an uncaught exception. -/
inductive EPhase (ι : Type) where
  | dispatching (remaining : List ι)
  | aggregating
  | stopping (remaining : List ι)
  | gathering
  | finished
  | failed (err : PyError)
deriving DecidableEq, Repr

/-- Global state of the interleaved execution: the engineer's program
counter and pending set, all mailboxes (FIFO, head = next to dequeue),
each worker's control state, and the event history (newest first). -/
structure SysState (ι : Type) where
  phase : EPhase ι
  pending : Finset ι
  engMailbox : List (Msg ι)
  wMailbox : ι → List (Msg ι)
  workers : ι → WorkerCtrl ι
  hist : List (Event ι)

/-- Initial state of one coordination cycle, as set up by
`RaceEngineer.__init__` and the start of `coordinate_pit_stop`: every
mailbox empty, every crew-member task parked at its `get()`, the pending
set equal to the full worker-identity set. -/
def initState {ι : Type} [DecidableEq ι] (pool : List ι) : SysState ι :=
  { phase := EPhase.dispatching pool
    pending := pool.toFinset
    engMailbox := []
    wMailbox := fun _ => []
    workers := fun _ => WorkerCtrl.awaitingMsg
    hist := [] }

/-- Enqueue a message at the tail of the designated mailbox
(`await mailbox.put(message)`). -/
def deliver {ι : Type} [DecidableEq ι] (dest : MailboxRef ι) (m : Msg ι) (s : SysState ι) :
    SysState ι :=
  match dest with
  | MailboxRef.engineer => { s with engMailbox := s.engMailbox ++ [m] }
  | MailboxRef.worker q =>
      { s with wMailbox := Function.update s.wMailbox q (s.wMailbox q ++ [m]) }

/-- One scheduling step of the `coordinate_pit_stop` coroutine (a no-op
when it is blocked or finished).  Dispatch sends `workMsg p` to each crew
member in turn; the aggregation loop consumes the engineer mailbox via
`engineerStep` while the pending set is non-empty; then a `stopMsg` is
sent to every crew member; finally `asyncio.gather` waits for all worker
tasks to have exited. -/
def engineerTask {ι : Type} [DecidableEq ι] (pool : List ι) (s : SysState ι) : SysState ι :=
  match s.phase with
  | EPhase.dispatching [] => { s with phase := EPhase.aggregating }
  | EPhase.dispatching (p :: rest) =>
      let s' := deliver (MailboxRef.worker p) (workMsg p) s
      { s' with phase := EPhase.dispatching rest
                hist := Event.sentWork p (workMsg p) :: s'.hist }
  | EPhase.aggregating =>
      if s.pending = ∅ then { s with phase := EPhase.stopping pool }
      else
        match s.engMailbox with
        | [] => s
        | m :: rest =>
          match engineerStep s.pending m with
          | Except.ok pd => { s with pending := pd, engMailbox := rest }
          | Except.error e => { s with phase := EPhase.failed e, engMailbox := rest }
  | EPhase.stopping [] => { s with phase := EPhase.gathering }
  | EPhase.stopping (p :: rest) =>
      let s' := deliver (MailboxRef.worker p) stopMsg s
      { s' with phase := EPhase.stopping rest
                hist := Event.sentStop p :: s'.hist }
  | EPhase.gathering =>
      if ∀ p ∈ pool, s.workers p = WorkerCtrl.stopped then { s with phase := EPhase.finished }
      else s
  | EPhase.finished => s
  | EPhase.failed _ => s

/-- One scheduling step of the `PitCrewMember.run` task of worker `p` (a
no-op when it is blocked, stopped or crashed): either dequeue the next
message and act on it per `workerStep`, or finish the simulated work by
sending the completion reply. -/
def workerTask {ι : Type} [DecidableEq ι] (p : ι) (s : SysState ι) : SysState ι :=
  match s.workers p with
  | WorkerCtrl.awaitingMsg =>
    match s.wMailbox p with
    | [] => s
    | m :: rest =>
      match workerStep p m with
      | WorkerAction.exit =>
          { s with workers := Function.update s.workers p WorkerCtrl.stopped
                   wMailbox := Function.update s.wMailbox p rest
                   hist := Event.gotStop p :: s.hist }
      | WorkerAction.reply d r =>
          { s with workers := Function.update s.workers p (WorkerCtrl.working d r)
                   wMailbox := Function.update s.wMailbox p rest }
      | WorkerAction.crash =>
          { s with workers := Function.update s.workers p WorkerCtrl.crashed
                   wMailbox := Function.update s.wMailbox p rest }
      | WorkerAction.ignore =>
          { s with wMailbox := Function.update s.wMailbox p rest }
  | WorkerCtrl.working d r =>
      let s' := deliver d r s
      { s' with workers := Function.update s'.workers p WorkerCtrl.awaitingMsg
                hist := Event.sentCompletion p :: s'.hist }
  | WorkerCtrl.stopped => s
  | WorkerCtrl.crashed => s

/-- A scheduling choice: let the engineer coroutine or one worker task
take its next step. -/
inductive Choice (ι : Type) where
  | eng
  | wrk (p : ι)
deriving DecidableEq, Repr

/-- One interleaving step under a scheduling choice. -/
def step {ι : Type} [DecidableEq ι] (pool : List ι) (c : Choice ι) (s : SysState ι) :
    SysState ι :=
  match c with
  | Choice.eng => engineerTask pool s
  | Choice.wrk p => workerTask p s

/-- Run a finite schedule of interleaving choices. -/
def runSched {ι : Type} [DecidableEq ι] (pool : List ι) (s : SysState ι) :
    List (Choice ι) → SysState ι
  | [] => s
  | c :: cs => runSched pool (step pool c s) cs

/-- The states of the coordination cycle reachable from its initial state
under some interleaving of the actor tasks. -/
def Reachable {ι : Type} [DecidableEq ι] (pool : List ι) (s : SysState ι) : Prop :=
  ∃ cs : List (Choice ι), runSched pool (initState pool) cs = s

/-- The work-dispatch events of a history, newest first. -/
def sentWorkEvList {ι : Type} : List (Event ι) → List (ι × Msg ι) :=
  List.filterMap fun e =>
    match e with
    | Event.sentWork p m => some (p, m)
    | _ => none

/-- True once the `coordinate_pit_stop` coroutine has passed its dispatch
loop (i.e. at or after the start of the aggregation wait). -/
def beganWaiting {ι : Type} : EPhase ι → Bool
  | EPhase.dispatching _ => false
  | _ => true

/-- Whether the work message for `p` has already been dispatched (1) or is
still ahead of the dispatch loop (0). -/
def dispatchedFlag {ι : Type} [DecidableEq ι] (ph : EPhase ι) (p : ι) : Nat :=
  match ph with
  | EPhase.dispatching rem => if p ∈ rem then 0 else 1
  | _ => 1

/-- Whether a worker control state is between receiving its work message
and sending its completion reply. -/
def workingFlag {ι : Type} (w : WorkerCtrl ι) : Nat :=
  match w with
  | WorkerCtrl.working _ _ => 1
  | _ => 0

/-- Whether `p` has been removed from the pending set. -/
def removedFlag {ι : Type} [DecidableEq ι] (pend : Finset ι) (p : ι) : Nat :=
  if p ∈ pend then 0 else 1

/-- Phases at or after the start of the shutdown scatter. -/
def phaseLate {ι : Type} : EPhase ι → Prop
  | EPhase.stopping _ => True
  | EPhase.gathering => True
  | EPhase.finished => True
  | _ => False

/-- Inductive invariant of the coordination cycle, stated over the six
components of a `SysState`, for a duplicate-free worker pool.  `conserve`
is the per-worker conservation law: once the work message for `p` is
dispatched, exactly one of the following holds — it sits in `p`'s mailbox,
`p` is working on it, the completion reply sits in the engineer's mailbox,
or `p` has been removed from the pending set. -/
structure SysInv {ι : Type} [DecidableEq ι] (pool : List ι) (ph : EPhase ι)
    (pend : Finset ι) (em : List (Msg ι)) (wm : ι → List (Msg ι))
    (wk : ι → WorkerCtrl ι) (h : List (Event ι)) : Prop where
  work_hist :
    match ph with
    | EPhase.dispatching rem =>
        ∃ pre, pool = pre ++ rem ∧
          sentWorkEvList h = (pre.map fun p => (p, workMsg p)).reverse
    | _ => sentWorkEvList h = (pool.map fun p => (p, workMsg p)).reverse
  stop_suffix : ∀ rem, ph = EPhase.stopping rem → rem <:+ pool
  conserve : ∀ p ∈ pool,
    dispatchedFlag ph p =
      (wm p).count (workMsg p) + workingFlag (wk p) + em.count (complMsg p) +
        removedFlag pend p
  eng_msgs : ∀ m ∈ em, ∃ p, p ∈ pool ∧ m = complMsg p
  wrk_msgs : ∀ p, ∀ m ∈ wm p, m = workMsg p ∨ m = stopMsg
  nonpool_mb : ∀ q, q ∉ pool → wm q = []
  nonpool_wk : ∀ q, q ∉ pool → wk q = WorkerCtrl.awaitingMsg
  working_inv : ∀ p d r, wk p = WorkerCtrl.working d r →
    d = MailboxRef.engineer ∧ r = complMsg p
  stop_pending : ∀ p, stopMsg ∈ wm p → pend = ∅
  removed_sent : ∀ p ∈ pool, p ∉ pend → Event.sentCompletion p ∈ h
  mb_sent : ∀ p, complMsg p ∈ em → Event.sentCompletion p ∈ h
  phase_empty : phaseLate ph → pend = ∅
  stopev_empty : ∀ p, Event.sentStop p ∈ h → pend = ∅
  gotstop_sent : ∀ p, Event.gotStop p ∈ h → Event.sentCompletion p ∈ h
  fin_stopped : ph = EPhase.finished → ∀ p ∈ pool, wk p = WorkerCtrl.stopped
  not_failed : ∀ e, ph ≠ EPhase.failed e

/-- The invariant, packaged over a whole system state. -/
def StateInv {ι : Type} [DecidableEq ι] (pool : List ι) (s : SysState ι) : Prop :=
  SysInv pool s.phase s.pending s.engMailbox s.wMailbox s.workers s.hist

theorem complMsg_inj {ι : Type} {p q : ι} (h : complMsg p = complMsg q) : p = q := by
  simpa [complMsg, Msg.mk.injEq] using h

theorem workMsg_ne_stopMsg {ι : Type} (p : ι) : workMsg p ≠ stopMsg := by
  simp [workMsg, stopMsg, Msg.mk.injEq]

theorem stopMsg_ne_workMsg {ι : Type} (p : ι) : (stopMsg : Msg ι) ≠ workMsg p := by
  simp [workMsg, stopMsg, Msg.mk.injEq]

theorem complMsg_ne_workMsg {ι : Type} (p q : ι) : complMsg p ≠ workMsg q := by
  simp [workMsg, complMsg, Msg.mk.injEq]

theorem complMsg_ne_stopMsg {ι : Type} (p : ι) : complMsg p ≠ stopMsg := by
  simp [stopMsg, complMsg, Msg.mk.injEq]

@[simp] theorem sentWorkEvList_work {ι : Type} (p : ι) (m : Msg ι) (h : List (Event ι)) :
    sentWorkEvList (Event.sentWork p m :: h) = (p, m) :: sentWorkEvList h := rfl

@[simp] theorem sentWorkEvList_compl {ι : Type} (p : ι) (h : List (Event ι)) :
    sentWorkEvList (Event.sentCompletion p :: h) = sentWorkEvList h := rfl

@[simp] theorem sentWorkEvList_stop {ι : Type} (p : ι) (h : List (Event ι)) :
    sentWorkEvList (Event.sentStop p :: h) = sentWorkEvList h := rfl

@[simp] theorem sentWorkEvList_gotstop {ι : Type} (p : ι) (h : List (Event ι)) :
    sentWorkEvList (Event.gotStop p :: h) = sentWorkEvList h := rfl

theorem stateInv_init {ι : Type} [DecidableEq ι] (pool : List ι) :
    StateInv pool (initState pool) := by
  dsimp only [StateInv, initState]
  constructor <;>
    simp [sentWorkEvList, dispatchedFlag, workingFlag, removedFlag, phaseLate]

theorem stateInv_eng {ι : Type} [DecidableEq ι] {pool : List ι} (hnd : pool.Nodup)
    {s : SysState ι} (hI : StateInv pool s) : StateInv pool (engineerTask pool s) := by
  obtain ⟨ph, pend, em, wm, wk, h⟩ := s
  dsimp only [StateInv] at hI
  obtain ⟨Hwork, Hsuf, Hcons, Heng, Hwrk, Hnpm, Hnpw, Hwing, Hstp, Hrem, Hmbs, Hpe, Hse,
    Hgs, Hfin, Hnf⟩ := hI
  cases ph with
  | dispatching rem =>
    cases rem with
    | nil =>
      dsimp only [engineerTask, StateInv]
      obtain ⟨pre, hpre, hev⟩ := Hwork
      rw [List.append_nil] at hpre
      subst hpre
      refine ⟨hev, ?_, ?_, Heng, Hwrk, Hnpm, Hnpw, Hwing, Hstp, Hrem, Hmbs, ?_, Hse, Hgs,
        ?_, ?_⟩
      · intro rem hrm; simp at hrm
      · intro q hq; exact Hcons q hq
      · simp [phaseLate]
      · intro hc; simp at hc
      · intro e hc; simp at hc
    | cons p rest =>
      dsimp only [engineerTask, deliver, StateInv]
      obtain ⟨pre, hpre, hev⟩ := Hwork
      have hppool : p ∈ pool := by rw [hpre]; simp
      have hnds : (p :: rest).Nodup := (List.IsSuffix.sublist ⟨pre, hpre.symm⟩).nodup hnd
      have hpr : p ∉ rest := (List.nodup_cons.1 hnds).1
      refine ⟨?_, ?_, ?_, Heng, ?_, ?_, Hnpw, Hwing, ?_, ?_, ?_, ?_, ?_, ?_, ?_, ?_⟩
      · exact ⟨pre ++ [p], by rw [hpre]; simp, by simp [hev]⟩
      · intro rem hrm; simp at hrm
      · intro q hq
        have hc := Hcons q hq
        dsimp only [dispatchedFlag] at hc ⊢
        rw [Function.update_apply]
        by_cases hqp : q = p
        · subst hqp
          rw [if_pos (List.mem_cons_self q rest)] at hc
          rw [if_neg hpr, if_pos rfl]
          have hone : ([workMsg q] : List (Msg ι)).count (workMsg q) = 1 := by
            simp [List.count_cons]
          rw [List.count_append, hone]
          omega
        · rw [if_neg hqp]
          simpa [List.mem_cons, hqp] using hc
      · intro q m hm
        rw [Function.update_apply] at hm
        by_cases hqp : q = p
        · subst hqp
          rw [if_pos rfl] at hm
          rcases List.mem_append.1 hm with h1 | h1
          · exact Hwrk q m h1
          · exact Or.inl (List.mem_singleton.1 h1)
        · rw [if_neg hqp] at hm
          exact Hwrk q m hm
      · intro q hq
        have hqp : q ≠ p := fun he => hq (he ▸ hppool)
        rw [Function.update_apply, if_neg hqp]
        exact Hnpm q hq
      · intro q hm
        rw [Function.update_apply] at hm
        by_cases hqp : q = p
        · subst hqp
          rw [if_pos rfl] at hm
          rcases List.mem_append.1 hm with h1 | h1
          · exact Hstp q h1
          · exact absurd (List.mem_singleton.1 h1) (stopMsg_ne_workMsg q)
        · rw [if_neg hqp] at hm
          exact Hstp q hm
      · intro q hq hqpend
        exact List.mem_cons_of_mem _ (Hrem q hq hqpend)
      · intro q hm
        exact List.mem_cons_of_mem _ (Hmbs q hm)
      · simp [phaseLate]
      · intro q hq
        rcases List.mem_cons.1 hq with h1 | h1
        · simp at h1
        · exact Hse q h1
      · intro q hq
        rcases List.mem_cons.1 hq with h1 | h1
        · simp at h1
        · exact List.mem_cons_of_mem _ (Hgs q h1)
      · intro hc; simp at hc
      · intro e hc; simp at hc
  | aggregating =>
    dsimp only [engineerTask]
    by_cases hpend : pend = ∅
    · rw [if_pos hpend]
      dsimp only [StateInv]
      refine ⟨Hwork, ?_, ?_, Heng, Hwrk, Hnpm, Hnpw, Hwing, Hstp, Hrem, Hmbs, ?_, Hse, Hgs,
        ?_, ?_⟩
      · intro rem hrm
        cases hrm
        exact List.suffix_refl pool
      · intro q hq; exact Hcons q hq
      · intro _; exact hpend
      · intro hc; simp at hc
      · intro e hc; simp at hc
    · rw [if_neg hpend]
      cases em with
      | nil =>
        exact ⟨Hwork, Hsuf, Hcons, Heng, Hwrk, Hnpm, Hnpw, Hwing, Hstp, Hrem, Hmbs, Hpe,
          Hse, Hgs, Hfin, Hnf⟩
      | cons m rest =>
        obtain ⟨q, hqpool, rfl⟩ := Heng m (List.mem_cons_self m rest)
        dsimp only
        have hstep : engineerStep pend (complMsg q) =
            if q ∈ pend then Except.ok (pend.erase q) else Except.error PyError.keyError := by
          simp [engineerStep, complMsg]
        by_cases hqpend : q ∈ pend
        · rw [hstep, if_pos hqpend]
          dsimp only [StateInv]
          refine ⟨Hwork, ?_, ?_, ?_, Hwrk, Hnpm, Hnpw, Hwing, ?_, ?_, ?_, ?_, ?_, Hgs, ?_,
            ?_⟩
          · intro rem hrm; simp at hrm
          · intro r hr
            have hc := Hcons r hr
            dsimp only [dispatchedFlag] at hc ⊢
            by_cases hrq : r = q
            · subst hrq
              have hcnt : (complMsg r :: rest).count (complMsg r) =
                  rest.count (complMsg r) + 1 := by
                simp [List.count_cons]
              rw [hcnt] at hc
              dsimp only [removedFlag] at hc ⊢
              rw [if_pos hqpend] at hc
              rw [if_neg (Finset.not_mem_erase r pend)]
              omega
            · have hne : complMsg q ≠ complMsg r := fun he => hrq (complMsg_inj he).symm
              have hcnt : (complMsg q :: rest).count (complMsg r) = rest.count (complMsg r) := by
                simp [List.count_cons, hne]
              rw [hcnt] at hc
              dsimp only [removedFlag] at hc ⊢
              simpa [Finset.mem_erase, hrq] using hc
          · intro m hm
            exact Heng m (List.mem_cons_of_mem _ hm)
          · intro r hm
            exact absurd (Hstp r hm) hpend
          · intro r hr hrpend
            by_cases hrq : r = q
            · subst hrq
              exact Hmbs r (List.mem_cons_self _ _)
            · have hnp : r ∉ pend := fun h2 => hrpend (Finset.mem_erase.2 ⟨hrq, h2⟩)
              exact Hrem r hr hnp
          · intro r hm
            exact Hmbs r (List.mem_cons_of_mem _ hm)
          · simp [phaseLate]
          · intro r hr
            exact absurd (Hse r hr) hpend
          · intro hc; simp at hc
          · intro e hc; simp at hc
        · rw [hstep, if_neg hqpend]
          exfalso
          have hc := Hcons q hqpool
          dsimp only [dispatchedFlag, removedFlag] at hc
          have hcnt : (complMsg q :: rest).count (complMsg q) = rest.count (complMsg q) + 1 := by
            simp [List.count_cons]
          rw [hcnt, if_neg hqpend] at hc
          omega
  | stopping rem =>
    cases rem with
    | nil =>
      dsimp only [engineerTask, StateInv]
      refine ⟨Hwork, ?_, ?_, Heng, Hwrk, Hnpm, Hnpw, Hwing, Hstp, Hrem, Hmbs, ?_, Hse, Hgs,
        ?_, ?_⟩
      · intro rem hrm; simp at hrm
      · intro q hq; exact Hcons q hq
      · intro _; exact Hpe trivial
      · intro hc; simp at hc
      · intro e hc; simp at hc
    | cons p rest =>
      dsimp only [engineerTask, deliver, StateInv]
      have hppool : p ∈ pool := (Hsuf (p :: rest) rfl).subset (List.mem_cons_self p rest)
      have hpe : pend = ∅ := Hpe trivial
      refine ⟨?_, ?_, ?_, Heng, ?_, ?_, Hnpw, Hwing, ?_, ?_, ?_, ?_, ?_, ?_, ?_, ?_⟩
      · simpa using Hwork
      · intro rem2 hrm
        cases hrm
        exact (List.suffix_cons p rest).trans (Hsuf _ rfl)
      · intro q hq
        have hc := Hcons q hq
        dsimp only [dispatchedFlag] at hc ⊢
        rw [Function.update_apply]
        by_cases hqp : q = p
        · subst hqp
          rw [if_pos rfl]
          have hz : (wm q ++ [stopMsg]).count (workMsg q) = (wm q).count (workMsg q) := by
            simp [List.count_append, List.count_cons, stopMsg_ne_workMsg]
          rw [hz]
          exact hc
        · rw [if_neg hqp]
          exact hc
      · intro q m hm
        rw [Function.update_apply] at hm
        by_cases hqp : q = p
        · subst hqp
          rw [if_pos rfl] at hm
          rcases List.mem_append.1 hm with h1 | h1
          · exact Hwrk q m h1
          · exact Or.inr (List.mem_singleton.1 h1)
        · rw [if_neg hqp] at hm
          exact Hwrk q m hm
      · intro q hq
        have hqp : q ≠ p := fun he => hq (he ▸ hppool)
        rw [Function.update_apply, if_neg hqp]
        exact Hnpm q hq
      · intro q hm
        exact hpe
      · intro q hq hqpend
        exact List.mem_cons_of_mem _ (Hrem q hq hqpend)
      · intro q hm
        exact List.mem_cons_of_mem _ (Hmbs q hm)
      · intro _; exact hpe
      · intro q hq; exact hpe
      · intro q hq
        rcases List.mem_cons.1 hq with h1 | h1
        · simp at h1
        · exact List.mem_cons_of_mem _ (Hgs q h1)
      · intro hc; simp at hc
      · intro e hc; simp at hc
  | gathering =>
    dsimp only [engineerTask]
    by_cases hall : ∀ p ∈ pool, wk p = WorkerCtrl.stopped
    · rw [if_pos hall]
      dsimp only [StateInv]
      refine ⟨Hwork, ?_, ?_, Heng, Hwrk, Hnpm, Hnpw, Hwing, Hstp, Hrem, Hmbs, ?_, Hse, Hgs,
        ?_, ?_⟩
      · intro rem hrm; simp at hrm
      · intro q hq; exact Hcons q hq
      · intro _; exact Hpe trivial
      · intro _; exact hall
      · intro e hc; simp at hc
    · rw [if_neg hall]
      exact ⟨Hwork, Hsuf, Hcons, Heng, Hwrk, Hnpm, Hnpw, Hwing, Hstp, Hrem, Hmbs, Hpe, Hse,
        Hgs, Hfin, Hnf⟩
  | finished =>
    exact ⟨Hwork, Hsuf, Hcons, Heng, Hwrk, Hnpm, Hnpw, Hwing, Hstp, Hrem, Hmbs, Hpe, Hse,
      Hgs, Hfin, Hnf⟩
  | failed e =>
    exact absurd rfl (Hnf e)

theorem stateInv_wrk {ι : Type} [DecidableEq ι] {pool : List ι} (p : ι)
    {s : SysState ι} (hI : StateInv pool s) : StateInv pool (workerTask p s) := by
  obtain ⟨ph, pend, em, wm, wk, h⟩ := s
  dsimp only [StateInv] at hI
  obtain ⟨Hwork, Hsuf, Hcons, Heng, Hwrk, Hnpm, Hnpw, Hwing, Hstp, Hrem, Hmbs, Hpe, Hse,
    Hgs, Hfin, Hnf⟩ := hI
  dsimp only [workerTask]
  cases hwkp : wk p with
  | awaitingMsg =>
    dsimp only
    cases hmb : wm p with
    | nil =>
      exact ⟨Hwork, Hsuf, Hcons, Heng, Hwrk, Hnpm, Hnpw, Hwing, Hstp, Hrem, Hmbs, Hpe, Hse,
        Hgs, Hfin, Hnf⟩
    | cons m rest =>
      have hppool : p ∈ pool := by
        by_contra hnp
        have hx := Hnpm p hnp
        rw [hx] at hmb
        simp at hmb
      rcases Hwrk p m (by rw [hmb]; exact List.mem_cons_self m rest) with hm | hm
      · subst hm
        have hws : workerStep p (workMsg p) =
            WorkerAction.reply MailboxRef.engineer (complMsg p) := by
          simp [workerStep, workMsg]
        dsimp only
        rw [hws]
        dsimp only [StateInv]
        refine ⟨Hwork, Hsuf, ?_, Heng, ?_, ?_, ?_, ?_, ?_, Hrem, Hmbs, Hpe, Hse, Hgs, ?_,
          Hnf⟩
        · intro q hq
          have hc := Hcons q hq
          rw [Function.update_apply, Function.update_apply]
          by_cases hqp : q = p
          · subst hqp
            rw [if_pos rfl, if_pos rfl]
            rw [hmb] at hc
            have hcnt : (workMsg q :: rest).count (workMsg q) = rest.count (workMsg q) + 1 := by
              simp [List.count_cons]
            rw [hcnt, hwkp] at hc
            dsimp only [workingFlag] at hc ⊢
            omega
          · rw [if_neg hqp, if_neg hqp]
            exact hc
        · intro q m2 hm2
          rw [Function.update_apply] at hm2
          by_cases hqp : q = p
          · subst hqp
            rw [if_pos rfl] at hm2
            exact Hwrk q m2 (by rw [hmb]; exact List.mem_cons_of_mem _ hm2)
          · rw [if_neg hqp] at hm2
            exact Hwrk q m2 hm2
        · intro q hqn
          have hqp : q ≠ p := fun he => hqn (he ▸ hppool)
          rw [Function.update_apply, if_neg hqp]
          exact Hnpm q hqn
        · intro q hqn
          have hqp : q ≠ p := fun he => hqn (he ▸ hppool)
          rw [Function.update_apply, if_neg hqp]
          exact Hnpw q hqn
        · intro q d r hq
          rw [Function.update_apply] at hq
          by_cases hqp : q = p
          · subst hqp
            rw [if_pos rfl] at hq
            cases hq
            exact ⟨rfl, rfl⟩
          · rw [if_neg hqp] at hq
            exact Hwing q d r hq
        · intro q hm2
          rw [Function.update_apply] at hm2
          by_cases hqp : q = p
          · subst hqp
            rw [if_pos rfl] at hm2
            exact Hstp q (by rw [hmb]; exact List.mem_cons_of_mem _ hm2)
          · rw [if_neg hqp] at hm2
            exact Hstp q hm2
        · intro hfin
          exfalso
          have hx := Hfin hfin p hppool
          rw [hwkp] at hx
          simp at hx
      · subst hm
        have hws : workerStep p (stopMsg : Msg ι) = WorkerAction.exit := by
          simp [workerStep, stopMsg]
        dsimp only
        rw [hws]
        dsimp only [StateInv]
        have hpend0 : pend = ∅ := Hstp p (by rw [hmb]; exact List.mem_cons_self _ _)
        have hsentp : Event.sentCompletion p ∈ h :=
          Hrem p hppool (by rw [hpend0]; exact Finset.not_mem_empty p)
        refine ⟨Hwork, Hsuf, ?_, Heng, ?_, ?_, ?_, ?_, ?_, ?_, ?_, Hpe, ?_, ?_, ?_, Hnf⟩
        · intro q hq
          have hc := Hcons q hq
          rw [Function.update_apply, Function.update_apply]
          by_cases hqp : q = p
          · subst hqp
            rw [if_pos rfl, if_pos rfl]
            rw [hmb] at hc
            have hcnt : (stopMsg :: rest).count (workMsg q) = rest.count (workMsg q) := by
              simp [List.count_cons, stopMsg_ne_workMsg]
            rw [hcnt, hwkp] at hc
            dsimp only [workingFlag] at hc ⊢
            omega
          · rw [if_neg hqp, if_neg hqp]
            exact hc
        · intro q m2 hm2
          rw [Function.update_apply] at hm2
          by_cases hqp : q = p
          · subst hqp
            rw [if_pos rfl] at hm2
            exact Hwrk q m2 (by rw [hmb]; exact List.mem_cons_of_mem _ hm2)
          · rw [if_neg hqp] at hm2
            exact Hwrk q m2 hm2
        · intro q hqn
          have hqp : q ≠ p := fun he => hqn (he ▸ hppool)
          rw [Function.update_apply, if_neg hqp]
          exact Hnpm q hqn
        · intro q hqn
          have hqp : q ≠ p := fun he => hqn (he ▸ hppool)
          rw [Function.update_apply, if_neg hqp]
          exact Hnpw q hqn
        · intro q d r hq
          rw [Function.update_apply] at hq
          by_cases hqp : q = p
          · subst hqp
            rw [if_pos rfl] at hq
            simp at hq
          · rw [if_neg hqp] at hq
            exact Hwing q d r hq
        · intro q hm2
          rw [Function.update_apply] at hm2
          by_cases hqp : q = p
          · subst hqp
            rw [if_pos rfl] at hm2
            exact Hstp q (by rw [hmb]; exact List.mem_cons_of_mem _ hm2)
          · rw [if_neg hqp] at hm2
            exact Hstp q hm2
        · intro q hq hqpend
          exact List.mem_cons_of_mem _ (Hrem q hq hqpend)
        · intro q hm2
          exact List.mem_cons_of_mem _ (Hmbs q hm2)
        · intro q hq2
          rcases List.mem_cons.1 hq2 with h1 | h1
          · simp at h1
          · exact Hse q h1
        · intro q hq2
          rcases List.mem_cons.1 hq2 with h1 | h1
          · injection h1 with h2
            subst h2
            exact List.mem_cons_of_mem _ hsentp
          · exact List.mem_cons_of_mem _ (Hgs q h1)
        · intro hfin q hq
          rw [Function.update_apply]
          by_cases hqp : q = p
          · rw [if_pos hqp]
          · rw [if_neg hqp]
            exact Hfin hfin q hq
  | working d r =>
    obtain ⟨hd, hr⟩ := Hwing p d r hwkp
    subst hd
    subst hr
    have hppool : p ∈ pool := by
      by_contra hnp
      have hx := Hnpw p hnp
      rw [hwkp] at hx
      simp at hx
    dsimp only [deliver, StateInv]
    refine ⟨Hwork, Hsuf, ?_, ?_, Hwrk, Hnpm, ?_, ?_, Hstp, ?_, ?_, Hpe, ?_, ?_, ?_, Hnf⟩
    · intro q hq
      have hc := Hcons q hq
      rw [Function.update_apply]
      by_cases hqp : q = p
      · subst hqp
        rw [if_pos rfl]
        rw [hwkp] at hc
        dsimp only [workingFlag] at hc ⊢
        have hcnt : (em ++ [complMsg q]).count (complMsg q) = em.count (complMsg q) + 1 := by
          simp [List.count_append, List.count_cons]
        rw [hcnt]
        omega
      · rw [if_neg hqp]
        have hne : complMsg p ≠ complMsg q := fun he => hqp (complMsg_inj he).symm
        have hcnt : (em ++ [complMsg p]).count (complMsg q) = em.count (complMsg q) := by
          simp [List.count_append, List.count_cons, hne]
        rw [hcnt]
        exact hc
    · intro m2 hm2
      rcases List.mem_append.1 hm2 with h1 | h1
      · exact Heng m2 h1
      · obtain rfl := List.mem_singleton.1 h1
        exact ⟨p, hppool, rfl⟩
    · intro q hqn
      have hqp : q ≠ p := fun he => hqn (he ▸ hppool)
      rw [Function.update_apply, if_neg hqp]
      exact Hnpw q hqn
    · intro q d2 r2 hq
      rw [Function.update_apply] at hq
      by_cases hqp : q = p
      · subst hqp
        rw [if_pos rfl] at hq
        simp at hq
      · rw [if_neg hqp] at hq
        exact Hwing q d2 r2 hq
    · intro q hq hqpend
      exact List.mem_cons_of_mem _ (Hrem q hq hqpend)
    · intro q hm2
      rcases List.mem_append.1 hm2 with h1 | h1
      · exact List.mem_cons_of_mem _ (Hmbs q h1)
      · have hqp := complMsg_inj (List.mem_singleton.1 h1)
        subst hqp
        exact List.mem_cons_self _ _
    · intro q hq2
      rcases List.mem_cons.1 hq2 with h1 | h1
      · simp at h1
      · exact Hse q h1
    · intro q hq2
      rcases List.mem_cons.1 hq2 with h1 | h1
      · simp at h1
      · exact List.mem_cons_of_mem _ (Hgs q h1)
    · intro hfin
      exfalso
      have hx := Hfin hfin p hppool
      rw [hwkp] at hx
      simp at hx
  | stopped =>
    exact ⟨Hwork, Hsuf, Hcons, Heng, Hwrk, Hnpm, Hnpw, Hwing, Hstp, Hrem, Hmbs, Hpe, Hse,
      Hgs, Hfin, Hnf⟩
  | crashed =>
    exact ⟨Hwork, Hsuf, Hcons, Heng, Hwrk, Hnpm, Hnpw, Hwing, Hstp, Hrem, Hmbs, Hpe, Hse,
      Hgs, Hfin, Hnf⟩

theorem stateInv_step {ι : Type} [DecidableEq ι] {pool : List ι} (hnd : pool.Nodup)
    (c : Choice ι) {s : SysState ι} (hI : StateInv pool s) : StateInv pool (step pool c s) := by
  cases c with
  | eng => exact stateInv_eng hnd hI
  | wrk p => exact stateInv_wrk p hI

@[simp] theorem runSched_nil {ι : Type} [DecidableEq ι] (pool : List ι) (s : SysState ι) :
    runSched pool s [] = s := rfl

@[simp] theorem runSched_cons {ι : Type} [DecidableEq ι] (pool : List ι) (s : SysState ι)
    (c : Choice ι) (cs : List (Choice ι)) :
    runSched pool s (c :: cs) = runSched pool (step pool c s) cs := rfl

theorem runSched_append {ι : Type} [DecidableEq ι] (pool : List ι) (s : SysState ι)
    (l1 l2 : List (Choice ι)) :
    runSched pool s (l1 ++ l2) = runSched pool (runSched pool s l1) l2 := by
  induction l1 generalizing s with
  | nil => rfl
  | cons c cs ih =>
    simp only [List.cons_append, runSched_cons]
    exact ih (step pool c s)

theorem stateInv_runSched {ι : Type} [DecidableEq ι] {pool : List ι} (hnd : pool.Nodup)
    (cs : List (Choice ι)) {s : SysState ι} (hI : StateInv pool s) :
    StateInv pool (runSched pool s cs) := by
  induction cs generalizing s with
  | nil => exact hI
  | cons c cs ih => exact ih (stateInv_step hnd c hI)

theorem stateInv_reachable {ι : Type} [DecidableEq ι] {pool : List ι} (hnd : pool.Nodup)
    {s : SysState ι} (hr : Reachable pool s) : StateInv pool s := by
  obtain ⟨cs, rfl⟩ := hr
  exact stateInv_runSched hnd cs (stateInv_init pool)

theorem run_dispatch {ι : Type} [DecidableEq ι] (pool : List ι) :
    ∀ (rem : List ι), rem.Nodup →
    ∀ (pend : Finset ι) (em : List (Msg ι)) (wm : ι → List (Msg ι))
      (wk : ι → WorkerCtrl ι) (h : List (Event ι)),
    runSched pool ⟨EPhase.dispatching rem, pend, em, wm, wk, h⟩
        (List.replicate rem.length Choice.eng) =
      ⟨EPhase.dispatching [], pend, em,
        (fun q => if q ∈ rem then wm q ++ [workMsg q] else wm q), wk,
        ((rem.map fun p => Event.sentWork p (workMsg p)).reverse ++ h)⟩ := by
  intro rem
  induction rem with
  | nil =>
    intro _ pend em wm wk h
    simp [SysState.mk.injEq]
  | cons p rest ih =>
    intro hnd pend em wm wk h
    have hpr : p ∉ rest := (List.nodup_cons.1 hnd).1
    have hrest : rest.Nodup := (List.nodup_cons.1 hnd).2
    rw [List.length_cons, List.replicate_succ, runSched_cons]
    dsimp only [step, engineerTask, deliver]
    rw [ih hrest pend em (Function.update wm p (wm p ++ [workMsg p])) wk
      (Event.sentWork p (workMsg p) :: h)]
    simp only [SysState.mk.injEq, true_and]
    constructor
    · funext q
      rw [Function.update_apply]
      by_cases hq : q = p
      · subst hq
        simp [hpr]
      · simp [List.mem_cons, hq]
    · simp

theorem run_workPairs {ι : Type} [DecidableEq ι] (pool : List ι) :
    ∀ (rem : List ι), rem.Nodup →
    ∀ (ph : EPhase ι) (pend : Finset ι) (em : List (Msg ι)) (wm : ι → List (Msg ι))
      (wk : ι → WorkerCtrl ι) (h : List (Event ι)),
      (∀ p ∈ rem, wk p = WorkerCtrl.awaitingMsg) →
      (∀ p ∈ rem, wm p = [workMsg p]) →
    runSched pool ⟨ph, pend, em, wm, wk, h⟩
        (rem.flatMap fun p => [Choice.wrk p, Choice.wrk p]) =
      ⟨ph, pend, em ++ rem.map complMsg,
        (fun q => if q ∈ rem then [] else wm q), wk,
        ((rem.map Event.sentCompletion).reverse ++ h)⟩ := by
  intro rem
  induction rem with
  | nil =>
    intro _ ph pend em wm wk h _ _
    simp [SysState.mk.injEq]
  | cons p rest ih =>
    intro hnd ph pend em wm wk h hwk hwm
    have hpr : p ∉ rest := (List.nodup_cons.1 hnd).1
    have hrest : rest.Nodup := (List.nodup_cons.1 hnd).2
    rw [List.flatMap_cons, List.cons_append, List.cons_append, List.nil_append,
      runSched_cons, runSched_cons]
    dsimp only [step, workerTask]
    rw [hwk p (List.mem_cons_self p rest), hwm p (List.mem_cons_self p rest)]
    dsimp only
    have hws : workerStep p (workMsg p) =
        WorkerAction.reply MailboxRef.engineer (complMsg p) := by
      simp [workerStep, workMsg]
    rw [hws]
    dsimp only
    rw [Function.update_same]
    dsimp only [deliver]
    rw [Function.update_idem]
    have hwkres : Function.update wk p WorkerCtrl.awaitingMsg = wk := by
      rw [← hwk p (List.mem_cons_self p rest)]
      exact Function.update_eq_self p wk
    rw [hwkres]
    rw [ih hrest ph pend (em ++ [complMsg p]) (Function.update wm p []) wk
      (Event.sentCompletion p :: h)
      (fun q hq => hwk q (List.mem_cons_of_mem p hq))
      (fun q hq => by
        rw [Function.update_apply, if_neg (fun he : q = p => hpr (he ▸ hq))]
        exact hwm q (List.mem_cons_of_mem p hq))]
    simp only [SysState.mk.injEq, true_and]
    refine ⟨by simp, ?_, by simp⟩
    funext q
    rw [Function.update_apply]
    by_cases hq : q = p
    · subst hq
      simp [hpr]
    · simp [List.mem_cons, hq]

theorem run_consume {ι : Type} [DecidableEq ι] (pool : List ι) :
    ∀ (ps : List ι), ps.Nodup →
    ∀ (wm : ι → List (Msg ι)) (wk : ι → WorkerCtrl ι) (h : List (Event ι)),
    runSched pool ⟨EPhase.aggregating, ps.toFinset, ps.map complMsg, wm, wk, h⟩
        (List.replicate ps.length Choice.eng) =
      ⟨EPhase.aggregating, ∅, [], wm, wk, h⟩ := by
  intro ps
  induction ps with
  | nil =>
    intro _ wm wk h
    simp [SysState.mk.injEq]
  | cons p rest ih =>
    intro hnd wm wk h
    have hp : p ∉ rest.toFinset := by
      simpa using (List.nodup_cons.1 hnd).1
    have hrest : rest.Nodup := (List.nodup_cons.1 hnd).2
    rw [List.length_cons, List.replicate_succ, runSched_cons]
    dsimp only [step, engineerTask]
    rw [if_neg (by simp : ¬(p :: rest).toFinset = ∅)]
    dsimp only [List.map_cons]
    have hstep : engineerStep ((p :: rest).toFinset) (complMsg p) = Except.ok rest.toFinset := by
      simp [engineerStep, complMsg, List.toFinset_cons, Finset.erase_insert hp]
    rw [hstep]
    dsimp only
    exact ih hrest wm wk h

theorem run_stopSends {ι : Type} [DecidableEq ι] (pool : List ι) :
    ∀ (rem : List ι), rem.Nodup →
    ∀ (pend : Finset ι) (em : List (Msg ι)) (wm : ι → List (Msg ι))
      (wk : ι → WorkerCtrl ι) (h : List (Event ι)),
    runSched pool ⟨EPhase.stopping rem, pend, em, wm, wk, h⟩
        (List.replicate rem.length Choice.eng) =
      ⟨EPhase.stopping [], pend, em,
        (fun q => if q ∈ rem then wm q ++ [stopMsg] else wm q), wk,
        ((rem.map Event.sentStop).reverse ++ h)⟩ := by
  intro rem
  induction rem with
  | nil =>
    intro _ pend em wm wk h
    simp [SysState.mk.injEq]
  | cons p rest ih =>
    intro hnd pend em wm wk h
    have hpr : p ∉ rest := (List.nodup_cons.1 hnd).1
    have hrest : rest.Nodup := (List.nodup_cons.1 hnd).2
    rw [List.length_cons, List.replicate_succ, runSched_cons]
    dsimp only [step, engineerTask, deliver]
    rw [ih hrest pend em (Function.update wm p (wm p ++ [stopMsg])) wk
      (Event.sentStop p :: h)]
    simp only [SysState.mk.injEq, true_and]
    constructor
    · funext q
      rw [Function.update_apply]
      by_cases hq : q = p
      · subst hq
        simp [hpr]
      · simp [List.mem_cons, hq]
    · simp

theorem run_exits {ι : Type} [DecidableEq ι] (pool : List ι) :
    ∀ (rem : List ι), rem.Nodup →
    ∀ (ph : EPhase ι) (pend : Finset ι) (em : List (Msg ι)) (wm : ι → List (Msg ι))
      (wk : ι → WorkerCtrl ι) (h : List (Event ι)),
      (∀ p ∈ rem, wk p = WorkerCtrl.awaitingMsg) →
      (∀ p ∈ rem, wm p = [stopMsg]) →
    runSched pool ⟨ph, pend, em, wm, wk, h⟩ (rem.map Choice.wrk) =
      ⟨ph, pend, em,
        (fun q => if q ∈ rem then [] else wm q),
        (fun q => if q ∈ rem then WorkerCtrl.stopped else wk q),
        ((rem.map Event.gotStop).reverse ++ h)⟩ := by
  intro rem
  induction rem with
  | nil =>
    intro _ ph pend em wm wk h _ _
    simp [SysState.mk.injEq]
  | cons p rest ih =>
    intro hnd ph pend em wm wk h hwk hwm
    have hpr : p ∉ rest := (List.nodup_cons.1 hnd).1
    have hrest : rest.Nodup := (List.nodup_cons.1 hnd).2
    rw [List.map_cons, runSched_cons]
    dsimp only [step, workerTask]
    rw [hwk p (List.mem_cons_self p rest), hwm p (List.mem_cons_self p rest)]
    dsimp only
    have hws : workerStep p (stopMsg : Msg ι) = WorkerAction.exit := by
      simp [workerStep, stopMsg]
    rw [hws]
    dsimp only
    rw [ih hrest ph pend em (Function.update wm p []) (Function.update wk p WorkerCtrl.stopped)
      (Event.gotStop p :: h)
      (fun q hq => by
        rw [Function.update_apply, if_neg (fun he : q = p => hpr (he ▸ hq))]
        exact hwk q (List.mem_cons_of_mem p hq))
      (fun q hq => by
        rw [Function.update_apply, if_neg (fun he : q = p => hpr (he ▸ hq))]
        exact hwm q (List.mem_cons_of_mem p hq))]
    simp only [SysState.mk.injEq, true_and]
    refine ⟨?_, ?_, by simp⟩
    · funext q
      rw [Function.update_apply]
      by_cases hq : q = p
      · subst hq
        simp [hpr]
      · simp [List.mem_cons, hq]
    · funext q
      rw [Function.update_apply]
      by_cases hq : q = p
      · subst hq
        simp [hpr]
      · simp [List.mem_cons, hq]

/-- The canonical interleaving of one full cycle: the engineer dispatches
all work messages and enters the aggregation wait; each worker in turn
receives its work message and sends its completion; the engineer consumes
all completions, empties the pending set and scatters the stop messages;
each worker receives its stop message and exits; the final gather step
observes all workers stopped. -/
def canonSched {ι : Type} (pool : List ι) : List (Choice ι) :=
  List.replicate pool.length Choice.eng ++ [Choice.eng] ++
    (pool.flatMap fun p => [Choice.wrk p, Choice.wrk p]) ++
    List.replicate pool.length Choice.eng ++ [Choice.eng] ++
    List.replicate pool.length Choice.eng ++ [Choice.eng] ++
    pool.map Choice.wrk ++ [Choice.eng]

/-- Worker mailboxes right after the dispatch scatter of the canonical
run: each pool member holds exactly its work message. -/
def wmDisp {ι : Type} [DecidableEq ι] (pool : List ι) : ι → List (Msg ι) :=
  fun q => if q ∈ pool then [workMsg q] else []

/-- Worker mailboxes after every worker consumed its work message. -/
def wmDone {ι : Type} [DecidableEq ι] (pool : List ι) : ι → List (Msg ι) :=
  fun q => if q ∈ pool then [] else wmDisp pool q

/-- Worker mailboxes after the shutdown scatter: each pool member holds
exactly the stop message. -/
def wmStop {ι : Type} [DecidableEq ι] (pool : List ι) : ι → List (Msg ι) :=
  fun q => if q ∈ pool then wmDone pool q ++ [stopMsg] else wmDone pool q

/-- Worker mailboxes after every worker consumed its stop message. -/
def wmExit {ι : Type} [DecidableEq ι] (pool : List ι) : ι → List (Msg ι) :=
  fun q => if q ∈ pool then [] else wmStop pool q

/-- Worker control states at the end of the canonical run. -/
def wkExit {ι : Type} [DecidableEq ι] (pool : List ι) : ι → WorkerCtrl ι :=
  fun q => if q ∈ pool then WorkerCtrl.stopped else WorkerCtrl.awaitingMsg

/-- Event history after the dispatch scatter of the canonical run. -/
def histDisp {ι : Type} (pool : List ι) : List (Event ι) :=
  (pool.map fun p => Event.sentWork p (workMsg p)).reverse ++ []

/-- Event history after all workers sent their completions. -/
def histWork {ι : Type} (pool : List ι) : List (Event ι) :=
  (pool.map Event.sentCompletion).reverse ++ histDisp pool

/-- Event history after the shutdown scatter. -/
def histStop {ι : Type} (pool : List ι) : List (Event ι) :=
  (pool.map Event.sentStop).reverse ++ histWork pool

/-- Event history at the end of the canonical run. -/
def histExit {ι : Type} (pool : List ι) : List (Event ι) :=
  (pool.map Event.gotStop).reverse ++ histStop pool

/-- The canonical interleaving drives one full cycle from the initial
state to the terminal state: `coordinate_pit_stop` has returned, the
pending set is empty, all mailboxes are drained and every pool worker has
exited its loop. -/
theorem canon_run {ι : Type} [DecidableEq ι] (pool : List ι) (hnd : pool.Nodup) :
    runSched pool (initState pool) (canonSched pool) =
      ⟨EPhase.finished, ∅, [], wmExit pool, wkExit pool, histExit pool⟩ := by
  have e1 : runSched pool (initState pool) (List.replicate pool.length Choice.eng) =
      ⟨EPhase.dispatching [], pool.toFinset, [], wmDisp pool,
        fun _ => WorkerCtrl.awaitingMsg, histDisp pool⟩ :=
    run_dispatch pool pool hnd _ _ _ _ _
  have e2 : runSched pool
      (⟨EPhase.dispatching [], pool.toFinset, [], wmDisp pool,
        fun _ => WorkerCtrl.awaitingMsg, histDisp pool⟩ : SysState ι) [Choice.eng] =
      ⟨EPhase.aggregating, pool.toFinset, [], wmDisp pool,
        fun _ => WorkerCtrl.awaitingMsg, histDisp pool⟩ := rfl
  have e3 : runSched pool
      (⟨EPhase.aggregating, pool.toFinset, [], wmDisp pool,
        fun _ => WorkerCtrl.awaitingMsg, histDisp pool⟩ : SysState ι)
      (pool.flatMap fun p => [Choice.wrk p, Choice.wrk p]) =
      ⟨EPhase.aggregating, pool.toFinset, pool.map complMsg, wmDone pool,
        fun _ => WorkerCtrl.awaitingMsg, histWork pool⟩ :=
    run_workPairs pool pool hnd _ _ _ _ _ _ (fun _ _ => rfl)
      (fun p hp => by simp [wmDisp, hp])
  have e4 : runSched pool
      (⟨EPhase.aggregating, pool.toFinset, pool.map complMsg, wmDone pool,
        fun _ => WorkerCtrl.awaitingMsg, histWork pool⟩ : SysState ι)
      (List.replicate pool.length Choice.eng) =
      ⟨EPhase.aggregating, ∅, [], wmDone pool,
        fun _ => WorkerCtrl.awaitingMsg, histWork pool⟩ := by
    have := run_consume pool pool hnd (wmDone pool)
      (fun _ => WorkerCtrl.awaitingMsg) (histWork pool)
    simpa [List.length_map] using this
  have e5 : runSched pool
      (⟨EPhase.aggregating, ∅, [], wmDone pool,
        fun _ => WorkerCtrl.awaitingMsg, histWork pool⟩ : SysState ι) [Choice.eng] =
      ⟨EPhase.stopping pool, ∅, [], wmDone pool,
        fun _ => WorkerCtrl.awaitingMsg, histWork pool⟩ := by
    simp only [runSched_cons, runSched_nil]
    dsimp only [step, engineerTask]
    rw [if_pos rfl]
  have e6 : runSched pool
      (⟨EPhase.stopping pool, ∅, [], wmDone pool,
        fun _ => WorkerCtrl.awaitingMsg, histWork pool⟩ : SysState ι)
      (List.replicate pool.length Choice.eng) =
      ⟨EPhase.stopping [], ∅, [], wmStop pool,
        fun _ => WorkerCtrl.awaitingMsg, histStop pool⟩ :=
    run_stopSends pool pool hnd _ _ _ _ _
  have e7 : runSched pool
      (⟨EPhase.stopping [], ∅, [], wmStop pool,
        fun _ => WorkerCtrl.awaitingMsg, histStop pool⟩ : SysState ι) [Choice.eng] =
      ⟨EPhase.gathering, ∅, [], wmStop pool,
        fun _ => WorkerCtrl.awaitingMsg, histStop pool⟩ := rfl
  have e8 : runSched pool
      (⟨EPhase.gathering, ∅, [], wmStop pool,
        fun _ => WorkerCtrl.awaitingMsg, histStop pool⟩ : SysState ι)
      (pool.map Choice.wrk) =
      ⟨EPhase.gathering, ∅, [], wmExit pool, wkExit pool, histExit pool⟩ :=
    run_exits pool pool hnd _ _ _ _ _ _ (fun _ _ => rfl)
      (fun p hp => by simp [wmStop, wmDone, hp])
  have e9 : runSched pool
      (⟨EPhase.gathering, ∅, [], wmExit pool, wkExit pool, histExit pool⟩ : SysState ι)
      [Choice.eng] =
      ⟨EPhase.finished, ∅, [], wmExit pool, wkExit pool, histExit pool⟩ := by
    simp only [runSched_cons, runSched_nil]
    dsimp only [step, engineerTask]
    rw [if_pos (fun p hp => by simp only [wkExit]; rw [if_pos hp])]
  calc runSched pool (initState pool) (canonSched pool)
      = runSched pool
          (⟨EPhase.gathering, ∅, [], wmExit pool, wkExit pool, histExit pool⟩ : SysState ι)
          [Choice.eng] := by
        simp only [canonSched]
        rw [runSched_append, runSched_append, runSched_append, runSched_append,
          runSched_append, runSched_append, runSched_append, runSched_append]
        rw [e1, e2, e3, e4, e5, e6, e7, e8]
    _ = _ := e9

theorem engineerRun_nil {ι : Type} [DecidableEq ι] (pending : Finset ι) :
    engineerRun pending [] =
      if pending = ∅ then EngOutcome.done [] else EngOutcome.starving pending := rfl

theorem engineerRun_cons {ι : Type} [DecidableEq ι] (pending : Finset ι) (m : Msg ι)
    (rest : List (Msg ι)) :
    engineerRun pending (m :: rest) =
      if pending = ∅ then EngOutcome.done (m :: rest)
      else
        match engineerStep pending m with
        | Except.ok pd => engineerRun pd rest
        | Except.error _ => EngOutcome.keyError pending m := rfl

theorem engineerTrace_nil {ι : Type} [DecidableEq ι] (pending : Finset ι) :
    engineerTrace pending [] = [pending] := by
  rw [engineerTrace]
  split <;> rfl

theorem engineerTrace_cons {ι : Type} [DecidableEq ι] (pending : Finset ι) (m : Msg ι)
    (rest : List (Msg ι)) :
    engineerTrace pending (m :: rest) =
      if pending = ∅ then [pending]
      else
        match engineerStep pending m with
        | Except.ok pd => pending :: engineerTrace pd rest
        | Except.error _ => [pending] := rfl

theorem workerRun_cons {ι : Type} (pos : ι) (m : Msg ι) (rest : List (Msg ι)) :
    workerRun pos (m :: rest) =
      match workerStep pos m with
      | WorkerAction.exit => WorkerOutcome.stopped [] rest
      | WorkerAction.reply d r => WorkerOutcome.consSend (d, r) (workerRun pos rest)
      | WorkerAction.crash => WorkerOutcome.crashed [] m
      | WorkerAction.ignore => workerRun pos rest := rfl

/-- C1: the spec requires a CompletionSignal for an already-removed worker
identity to be a no-op on the pending set.  The code instead calls
`pending_changes.remove(msg.position)`, and Python's `set.remove` raises
`KeyError` on an absent element: with pending = FRONT_RIGHT only, a
duplicate TIRE_CHANGED for FRONT_LEFT makes the loop body raise instead of
leaving the pending set unchanged. -/
theorem c1_duplicate_completion_raises :
    engineerStep ({Position.FRONT_RIGHT} : Finset Position) (complMsg Position.FRONT_LEFT) =
      Except.error PyError.keyError ∧
    engineerStep ({Position.FRONT_RIGHT} : Finset Position) (complMsg Position.FRONT_LEFT) ≠
      Except.ok ({Position.FRONT_RIGHT} : Finset Position) := by
  refine ⟨rfl, fun hc => ?_⟩
  exact Except.noConfusion hc

/-- C5: a worker's loop body exits on a STOP message, and on a CHANGE_TIRE
message whose Task names a reply channel it performs the work and sends
exactly one completion signal carrying its own identity to that channel,
then continues the loop. -/
theorem c5_worker_message_handling (pos : Position) (m : Msg Position)
    (rest : List (Msg Position)) (d : MailboxRef Position) :
    (m.msg_type = MessageType.STOP →
      workerStep pos m = WorkerAction.exit ∧
      workerRun pos (m :: rest) = WorkerOutcome.stopped [] rest) ∧
    (m.msg_type = MessageType.CHANGE_TIRE → m.sender_mailbox = some d →
      workerStep pos m = WorkerAction.reply d (complMsg pos) ∧
      (complMsg pos).msg_type = MessageType.TIRE_CHANGED ∧
      (complMsg pos).position = some pos ∧
      workerRun pos (m :: rest) =
        WorkerOutcome.consSend (d, complMsg pos) (workerRun pos rest)) := by
  constructor
  · intro hstop
    have hws : workerStep pos m = WorkerAction.exit := by simp [workerStep, hstop]
    exact ⟨hws, by rw [workerRun_cons, hws]⟩
  · intro hw hs
    have hws : workerStep pos m = WorkerAction.reply d (complMsg pos) := by
      simp [workerStep, hw, hs]
    exact ⟨hws, rfl, rfl, by rw [workerRun_cons, hws]⟩

theorem c5_worker_message_handling_witness :
    ((stopMsg : Msg Position).msg_type = MessageType.STOP ∧
      workerRun Position.FRONT_LEFT [stopMsg] = WorkerOutcome.stopped [] []) ∧
    ((workMsg Position.FRONT_LEFT).msg_type = MessageType.CHANGE_TIRE ∧
      (workMsg Position.FRONT_LEFT).sender_mailbox = some MailboxRef.engineer ∧
      workerRun Position.FRONT_LEFT [workMsg Position.FRONT_LEFT] =
        WorkerOutcome.consSend (MailboxRef.engineer, complMsg Position.FRONT_LEFT)
          (workerRun Position.FRONT_LEFT [])) := by
  refine ⟨⟨rfl, ?_⟩, rfl, rfl, ?_⟩
  · exact ((c5_worker_message_handling Position.FRONT_LEFT stopMsg []
      MailboxRef.engineer).1 rfl).2
  · exact ((c5_worker_message_handling Position.FRONT_LEFT (workMsg Position.FRONT_LEFT) []
      MailboxRef.engineer).2 rfl rfl).2.2.2

/-- C8: the Message dataclass defaults `sender_mailbox` to None (the
two-argument construction used for replies leaves it None), and the worker
dereferences the field unguarded when handling CHANGE_TIRE: the reply step
crashes exactly when the work message carries no sender mailbox, and is
well-defined (a single reply to the named channel) exactly when it carries
one. -/
theorem c8_work_requires_sender (m : Msg Position) (pos : Position)
    (hw : m.msg_type = MessageType.CHANGE_TIRE) :
    ({ msg_type := MessageType.CHANGE_TIRE,
       position := some pos } : Msg Position).sender_mailbox = none ∧
    (workerStep pos m = WorkerAction.crash ↔ m.sender_mailbox = none) ∧
    (∀ d, m.sender_mailbox = some d →
      workerStep pos m = WorkerAction.reply d (complMsg pos)) := by
  refine ⟨rfl, ?_, fun d hs => by simp [workerStep, hw, hs]⟩
  cases hs : m.sender_mailbox with
  | none => simp [workerStep, hw, hs]
  | some d => simp [workerStep, hw, hs]

theorem c8_work_requires_sender_witness :
    ({ msg_type := MessageType.CHANGE_TIRE,
       position := some Position.FRONT_LEFT } : Msg Position).msg_type =
        MessageType.CHANGE_TIRE ∧
    (workerStep Position.FRONT_LEFT
        ({ msg_type := MessageType.CHANGE_TIRE,
           position := some Position.FRONT_LEFT } : Msg Position) = WorkerAction.crash ↔
      ({ msg_type := MessageType.CHANGE_TIRE,
         position := some Position.FRONT_LEFT } : Msg Position).sender_mailbox = none) := by
  refine ⟨rfl, ?_⟩
  exact (c8_work_requires_sender
    ({ msg_type := MessageType.CHANGE_TIRE, position := some Position.FRONT_LEFT } : Msg Position)
    Position.FRONT_LEFT rfl).2.1

/-- C9: in the supervisor's aggregation loop a dequeued message whose type
is not TIRE_CHANGED is discarded: the pending set is unchanged and the
loop goes on waiting for further messages. -/
theorem c9_non_completion_discarded (pending : Finset Position) (m : Msg Position)
    (rest : List (Msg Position)) (hm : m.msg_type ≠ MessageType.TIRE_CHANGED) :
    engineerStep pending m = Except.ok pending ∧
    (pending ≠ ∅ → engineerRun pending (m :: rest) = engineerRun pending rest) := by
  have hs : engineerStep pending m = Except.ok pending := by simp [engineerStep, hm]
  refine ⟨hs, fun hne => ?_⟩
  rw [engineerRun_cons, if_neg hne, hs]

theorem c9_non_completion_discarded_witness :
    (stopMsg : Msg Position).msg_type ≠ MessageType.TIRE_CHANGED ∧
    ({Position.FRONT_LEFT} : Finset Position) ≠ ∅ ∧
    engineerStep ({Position.FRONT_LEFT} : Finset Position) stopMsg =
      Except.ok {Position.FRONT_LEFT} ∧
    engineerRun ({Position.FRONT_LEFT} : Finset Position) [stopMsg] =
      engineerRun {Position.FRONT_LEFT} [] := by
  have h := c9_non_completion_discarded {Position.FRONT_LEFT} stopMsg [] (by decide)
  exact ⟨by decide, by decide, h.1, h.2 (by decide)⟩

/-- C10: a worker that dequeues a message whose type is neither STOP nor
CHANGE_TIRE falls through both branches: no work, no reply, no state
change, and the loop moves on to the next message. -/
theorem c10_unknown_message_ignored (pos : Position) (m : Msg Position)
    (rest : List (Msg Position)) (h1 : m.msg_type ≠ MessageType.STOP)
    (h2 : m.msg_type ≠ MessageType.CHANGE_TIRE) :
    workerStep pos m = WorkerAction.ignore ∧
    workerRun pos (m :: rest) = workerRun pos rest := by
  have hws : workerStep pos m = WorkerAction.ignore := by simp [workerStep, h1, h2]
  exact ⟨hws, by rw [workerRun_cons, hws]⟩

theorem c10_unknown_message_ignored_witness :
    (complMsg Position.FRONT_LEFT : Msg Position).msg_type ≠ MessageType.STOP ∧
    (complMsg Position.FRONT_LEFT : Msg Position).msg_type ≠ MessageType.CHANGE_TIRE ∧
    workerStep Position.REAR_LEFT (complMsg Position.FRONT_LEFT) = WorkerAction.ignore ∧
    workerRun Position.REAR_LEFT [complMsg Position.FRONT_LEFT] =
      workerRun Position.REAR_LEFT [] := by
  have h := c10_unknown_message_ignored Position.REAR_LEFT (complMsg Position.FRONT_LEFT) []
    (by decide) (by decide)
  exact ⟨by decide, by decide, h.1, h.2⟩

/-- C6: for every duplicate-free arrival order covering exactly the
pending pool, the aggregation loop consumes the completion signals one by
one, the pending set shrinking at each step by exactly the arriving
signal's identity (the trace is the scanl of `Finset.erase` along the
arrival order), and the loop terminates exactly when the set becomes empty
(all messages consumed, none left over). -/
theorem c6_aggregation_permutation (ps : List Position) (pending : Finset Position)
    (hnd : ps.Nodup) (hps : ps.toFinset = pending) :
    engineerRun pending (ps.map complMsg) = EngOutcome.done [] ∧
    engineerTrace pending (ps.map complMsg) =
      List.scanl (fun pd p => pd.erase p) pending ps := by
  induction ps generalizing pending with
  | nil =>
    rw [List.toFinset_nil] at hps
    subst hps
    constructor
    · rw [List.map_nil, engineerRun_nil, if_pos rfl]
    · rw [List.map_nil, engineerTrace_nil, List.scanl_nil]
  | cons p rest ih =>
    have hpr : p ∉ rest := (List.nodup_cons.1 hnd).1
    have hrest : rest.Nodup := (List.nodup_cons.1 hnd).2
    have hpin : p ∈ pending := by rw [← hps]; simp
    have hne : pending ≠ ∅ := by
      rw [← hps]
      simp
    have herase : pending.erase p = rest.toFinset := by
      rw [← hps, List.toFinset_cons, Finset.erase_insert (by simpa using hpr)]
    have hstep : engineerStep pending (complMsg p) = Except.ok rest.toFinset := by
      simp [engineerStep, complMsg, hpin, herase]
    obtain ⟨ih1, ih2⟩ := ih rest.toFinset hrest rfl
    constructor
    · rw [List.map_cons, engineerRun_cons, if_neg hne, hstep]
      exact ih1
    · rw [List.map_cons, engineerTrace_cons, if_neg hne, hstep, List.scanl_cons, herase]
      exact congrArg (List.cons pending) ih2

theorem c6_aggregation_permutation_witness :
    ([Position.REAR_LEFT, Position.FRONT_LEFT, Position.REAR_RIGHT,
        Position.FRONT_RIGHT] : List Position).Nodup ∧
    ([Position.REAR_LEFT, Position.FRONT_LEFT, Position.REAR_RIGHT,
        Position.FRONT_RIGHT] : List Position).toFinset = allPositions.toFinset ∧
    engineerRun allPositions.toFinset
      ([Position.REAR_LEFT, Position.FRONT_LEFT, Position.REAR_RIGHT,
        Position.FRONT_RIGHT].map complMsg) = EngOutcome.done [] ∧
    engineerTrace allPositions.toFinset
      ([Position.REAR_LEFT, Position.FRONT_LEFT, Position.REAR_RIGHT,
        Position.FRONT_RIGHT].map complMsg) =
      [allPositions.toFinset,
       [Position.FRONT_LEFT, Position.FRONT_RIGHT, Position.REAR_RIGHT].toFinset,
       [Position.FRONT_RIGHT, Position.REAR_RIGHT].toFinset,
       [Position.FRONT_RIGHT].toFinset, ∅] := by
  have h := c6_aggregation_permutation
    [Position.REAR_LEFT, Position.FRONT_LEFT, Position.REAR_RIGHT, Position.FRONT_RIGHT]
    allPositions.toFinset (by decide) (by decide)
  exact ⟨by decide, by decide, h.1, by decide⟩

/-- C3: in every reachable state of every interleaving, a worker has
received its stop message only if its own completion signal was sent
earlier, and a stop message has been issued only in states whose pending
set is empty — shutdown is never issued while the pending set is
non-empty. -/
theorem c3_stop_only_after_completion (ι : Type) [DecidableEq ι] (pool : List ι)
    (s : SysState ι) (hnd : pool.Nodup) (hr : Reachable pool s) :
    (∀ p, Event.gotStop p ∈ s.hist → Event.sentCompletion p ∈ s.hist) ∧
    (∀ p, Event.sentStop p ∈ s.hist → s.pending = ∅) := by
  have hI := stateInv_reachable hnd hr
  exact ⟨SysInv.gotstop_sent hI, SysInv.stopev_empty hI⟩

theorem c3_stop_only_after_completion_witness :
    allPositions.Nodup ∧
    Event.gotStop Position.FRONT_LEFT ∈
      (runSched allPositions (initState allPositions) (canonSched allPositions)).hist ∧
    ((∀ p, Event.gotStop p ∈
        (runSched allPositions (initState allPositions) (canonSched allPositions)).hist →
        Event.sentCompletion p ∈
          (runSched allPositions (initState allPositions) (canonSched allPositions)).hist) ∧
     (∀ p, Event.sentStop p ∈
        (runSched allPositions (initState allPositions) (canonSched allPositions)).hist →
        (runSched allPositions (initState allPositions) (canonSched allPositions)).pending =
          ∅)) := by
  refine ⟨by decide, ?_,
    c3_stop_only_after_completion Position allPositions _ (by decide)
      ⟨canonSched allPositions, rfl⟩⟩
  rw [canon_run allPositions (by decide)]
  decide

/-- C4: dispatch is a scatter — in every reachable state at or after the
start of the supervisor's aggregation wait, the dispatch events are
exactly one work Task per pool worker, in pool order, each Task a
CHANGE_TIRE message addressed to its worker with the reply channel set to
the supervisor's own mailbox; no dispatch happens after the wait begins. -/
theorem c4_dispatch_scatter (ι : Type) [DecidableEq ι] (pool : List ι) (s : SysState ι)
    (hnd : pool.Nodup) (hr : Reachable pool s) (hw : beganWaiting s.phase = true) :
    (sentWorkEvList s.hist).reverse = (pool.map fun p => (p, workMsg p)) ∧
    (∀ p : ι, (workMsg p).msg_type = MessageType.CHANGE_TIRE ∧
      (workMsg p).position = some p ∧
      (workMsg p).sender_mailbox = some MailboxRef.engineer) := by
  have hI := stateInv_reachable hnd hr
  have hwork := SysInv.work_hist hI
  refine ⟨?_, fun p => ⟨rfl, rfl, rfl⟩⟩
  have hev : sentWorkEvList s.hist = ((pool.map fun p => (p, workMsg p)).reverse) := by
    cases hph : s.phase with
    | dispatching rem =>
      rw [hph] at hw
      simp [beganWaiting] at hw
    | aggregating => rw [hph] at hwork; exact hwork
    | stopping rem => rw [hph] at hwork; exact hwork
    | gathering => rw [hph] at hwork; exact hwork
    | finished => rw [hph] at hwork; exact hwork
    | failed e => rw [hph] at hwork; exact hwork
  rw [hev, List.reverse_reverse]

theorem c4_dispatch_scatter_witness :
    allPositions.Nodup ∧
    beganWaiting
      (runSched allPositions (initState allPositions) (canonSched allPositions)).phase =
        true ∧
    ((sentWorkEvList
        (runSched allPositions (initState allPositions) (canonSched allPositions)).hist).reverse =
      (allPositions.map fun p => (p, workMsg p)) ∧
    (∀ p : Position, (workMsg p).msg_type = MessageType.CHANGE_TIRE ∧
      (workMsg p).position = some p ∧
      (workMsg p).sender_mailbox = some MailboxRef.engineer)) := by
  refine ⟨by decide, ?_, c4_dispatch_scatter Position allPositions _ (by decide)
    ⟨canonSched allPositions, rfl⟩ ?_⟩
  · rw [canon_run allPositions (by decide)]
    rfl
  · rw [canon_run allPositions (by decide)]
    rfl

/-- C7: in every reachable state of every interleaving in which worker `p`
has not delivered its completion signal, `p` is still in the pending set
(so the pending set is non-empty), the aggregation loop has not finished
(the engineer is still dispatching or aggregating), and no stop message
has been issued to anyone — a worker that never completes stalls the cycle
and shutdown never happens. -/
theorem c7_missing_completion_stalls (ι : Type) [DecidableEq ι] (pool : List ι)
    (s : SysState ι) (p : ι) (hnd : pool.Nodup) (hp : p ∈ pool) (hr : Reachable pool s)
    (hnever : Event.sentCompletion p ∉ s.hist) :
    p ∈ s.pending ∧ s.pending ≠ ∅ ∧ (∀ q, Event.sentStop q ∉ s.hist) ∧
    ((∃ rem, s.phase = EPhase.dispatching rem) ∨ s.phase = EPhase.aggregating) := by
  have hI := stateInv_reachable hnd hr
  have hpin : p ∈ s.pending := by
    by_contra hc
    exact hnever (SysInv.removed_sent hI p hp hc)
  have hne : s.pending ≠ ∅ := fun he => by
    rw [he] at hpin
    exact Finset.not_mem_empty p hpin
  refine ⟨hpin, hne, fun q hq => hne (SysInv.stopev_empty hI q hq), ?_⟩
  cases hph : s.phase with
  | dispatching rem => exact Or.inl ⟨rem, rfl⟩
  | aggregating => exact Or.inr rfl
  | stopping rem =>
    exact absurd (SysInv.phase_empty hI (by rw [hph]; trivial)) hne
  | gathering => exact absurd (SysInv.phase_empty hI (by rw [hph]; trivial)) hne
  | finished => exact absurd (SysInv.phase_empty hI (by rw [hph]; trivial)) hne
  | failed e => exact absurd hph (SysInv.not_failed hI e)

theorem c7_missing_completion_stalls_witness :
    allPositions.Nodup ∧ Position.REAR_RIGHT ∈ allPositions ∧
    Event.sentCompletion Position.REAR_RIGHT ∉ (initState allPositions).hist ∧
    (Position.REAR_RIGHT ∈ (initState allPositions).pending ∧
      (initState allPositions).pending ≠ ∅ ∧
      (∀ q, Event.sentStop q ∉ (initState allPositions).hist) ∧
      ((∃ rem, (initState allPositions).phase = EPhase.dispatching rem) ∨
        (initState allPositions).phase = EPhase.aggregating)) := by
  exact ⟨by decide, by decide, by decide,
    c7_missing_completion_stalls Position allPositions (initState allPositions)
      Position.REAR_RIGHT (by decide) (by decide) ⟨[], rfl⟩ (by decide)⟩

/-- The full dispatch/aggregate/shutdown cycle contract for a pool of
`n` workers (identities 0..n-1): the pending set starts with exactly `n`
entries; the canonical interleaving completes the cycle — the coroutine
returns (`finished`), the pending set ends empty, every worker has cleanly
exited, and exactly one work Task was dispatched per worker; and in every
reachable state of every interleaving, a stop message has only ever been
issued with an empty pending set, and the cycle has only returned once all
workers are stopped. -/
def runCycleClaim (n : Nat) : Prop :=
  ((initState (List.range n)).pending.card = n) ∧
  (runSched (List.range n) (initState (List.range n)) (canonSched (List.range n))).phase =
      EPhase.finished ∧
  (runSched (List.range n) (initState (List.range n)) (canonSched (List.range n))).pending =
      ∅ ∧
  (∀ p ∈ List.range n,
    (runSched (List.range n) (initState (List.range n)) (canonSched (List.range n))).workers
        p = WorkerCtrl.stopped) ∧
  ((sentWorkEvList
      (runSched (List.range n) (initState (List.range n))
        (canonSched (List.range n))).hist).reverse =
    ((List.range n).map fun p => (p, workMsg p))) ∧
  (∀ s : SysState Nat, Reachable (List.range n) s →
    (∀ q, Event.sentStop q ∈ s.hist → s.pending = ∅) ∧
    (s.phase = EPhase.finished → ∀ p ∈ List.range n, s.workers p = WorkerCtrl.stopped))

/-- C2: for every worker_count ≥ 1, one cycle of the coordination core
satisfies `runCycleClaim`: exactly one Task per worker, pending-set size
from worker_count down to 0 before shutdown, and return only on clean
completion of all workers. -/
theorem c2_run_cycle (n : Nat) (_hn : 1 ≤ n) : runCycleClaim n := by
  have hnd : (List.range n).Nodup := List.nodup_range n
  have hcr := canon_run (List.range n) hnd
  refine ⟨?_, ?_, ?_, ?_, ?_, ?_⟩
  · dsimp only [initState]
    rw [List.toFinset_card_of_nodup hnd, List.length_range]
  · rw [hcr]
  · rw [hcr]
  · intro p hp
    rw [hcr]
    dsimp only [wkExit]
    rw [if_pos hp]
  · have hI := stateInv_reachable hnd ⟨canonSched (List.range n), rfl⟩
    have hwork := SysInv.work_hist hI
    rw [hcr] at hwork
    have hwork2 : sentWorkEvList (histExit (List.range n)) =
        ((List.range n).map fun p => (p, workMsg p)).reverse := hwork
    rw [hcr]
    dsimp only
    rw [hwork2, List.reverse_reverse]
  · intro s hr
    have hI := stateInv_reachable hnd hr
    exact ⟨SysInv.stopev_empty hI, fun hf => SysInv.fin_stopped hI hf⟩

theorem c2_run_cycle_witness : 1 ≤ 4 ∧ runCycleClaim 4 :=
  ⟨by decide, c2_run_cycle 4 (by decide)⟩
